import Mathlib

/-!
Verification of the RepoPacker core (zip-to-markdown packer).

The development shallowly embeds the TypeScript source:
* the entry classifier (`isTextFile`, `shouldIgnore`, and the earlier
  revision `shouldIgnore_v1`),
* the tree renderer (`generateTreeString`),
* the archive walker (`processZipFile`, with the progress callback made
  explicit as a returned event trace),
* the document packer (`createMarkdownContent`).

JavaScript's `String.prototype.split` with a single-character separator is
embedded as `splitChar` on `List Char`; JS objects used as string-keyed
dictionaries are embedded as association lists in property-creation order.
-/

/-- Embedding of JS `str.split(sep)` for a one-character separator:
splitting the empty list yields `[[]]`, like `"".split` yields `[""]`. -/
def splitChar (sep : Char) : List Char → List (List Char)
  | [] => [[]]
  | c :: rest =>
    match splitChar sep rest with
    | [] => [[]]
    | s :: ss => if c = sep then [] :: s :: ss else (c :: s) :: ss

/-- The `/`-separated segments of a path, as strings. -/
def pathSegments (path : String) : List String :=
  (splitChar '/' path.data).map String.mk

/-- Embedding of `filename.split('/').pop()`: the final segment. -/
def basenameOf (filename : String) : String :=
  String.mk ((splitChar '/' filename.data).getLastD [])

-- Source: TEXT_EXTENSIONS (later revision, part_000)
def TEXT_EXTENSIONS : List String :=
  ["js", "jsx", "ts", "tsx", "json", "css", "scss", "html", "md", "txt",
   "py", "java", "c", "cpp", "h", "cs", "go", "rs", "php", "rb", "sh",
   "yaml", "yml", "xml", "sql", "gitignore", "env", "dockerfile", "toml",
   "gradle", "properties"]

-- Source: IGNORE_DIRS (later revision, part_000)
def IGNORE_DIRS : List String :=
  [".git", "node_modules", "dist", "build", "coverage", ".idea", ".vscode",
   "__pycache__", "bin", "obj"]

-- Source: IGNORE_FILES (later revision, part_000)
def IGNORE_FILES : List String :=
  ["package-lock.json", "yarn.lock", "pnpm-lock.yaml", ".DS_Store",
   "thumbs.db"]

/-- `String.toLower` spelled as a character-wise map over the data, so
that it evaluates by kernel reduction; `String.toLower` is definitionally
this map over the string's characters. -/
def toLowerStr (s : String) : String :=
  String.mk (s.data.map Char.toLower)

/-- Embedding of `isTextFile` (later revision).  `pop` on the result of a
split is the last element; `!basename` is true exactly for the empty
string; `ext ? TEXT_EXTENSIONS.has(ext) : false` treats an empty last
part as falsy. -/
def isTextFile (filename : String) : Bool :=
  let basename := toLowerStr (basenameOf filename)
  if basename = "" then false
  else if ["dockerfile", "makefile", "license", "jenkinsfile",
           "vagrantfile"].contains basename then true
  else
    let parts := splitChar '.' basename.data
    if parts.length = 1 then false
    else
      let ext := String.mk (parts.getLastD [])
      if ext = "" then false else TEXT_EXTENSIONS.contains ext

/-- The shared segment-matching rule of both `shouldIgnore` revisions,
parametrised by the two ignore sets. -/
def ignoreBy (dirs ignoredFiles : List String) (path : String) : Bool :=
  let parts := pathSegments path
  if parts.any (fun part => dirs.contains part) then true
  else if ignoredFiles.contains (parts.getLastD "") then true
  else false

/-- Embedding of `shouldIgnore` (later revision): any segment in
`IGNORE_DIRS`, or the final segment in `IGNORE_FILES`. -/
def shouldIgnore (path : String) : Bool :=
  let parts := pathSegments path
  if parts.any (fun part => IGNORE_DIRS.contains part) then true
  else if IGNORE_FILES.contains (parts.getLastD "") then true
  else false

-- Source: IGNORE_DIRS (earlier revision, part_001)
def IGNORE_DIRS_v1 : List String :=
  [".git", "node_modules", "dist", "build", "coverage", ".idea", ".vscode",
   "__pycache__"]

-- Source: IGNORE_FILES (earlier revision, part_001)
def IGNORE_FILES_v1 : List String :=
  ["package-lock.json", "yarn.lock", "pnpm-lock.yaml", ".DS_Store"]

/-- Embedding of `shouldIgnore` from the earlier revision (part_001):
identical segment rule over the smaller ignore sets. -/
def shouldIgnore_v1 (path : String) : Bool :=
  let parts := pathSegments path
  if parts.any (fun part => IGNORE_DIRS_v1.contains part) then true
  else if IGNORE_FILES_v1.contains (parts.getLastD "") then true
  else false

example : shouldIgnore "a/node_modules/b.js" = true := by decide
example : shouldIgnore "yarn.lock" = true := by decide
example : shouldIgnore "yarn.lock/" = false := by decide
example : shouldIgnore "src/a.ts" = false := by decide
example : isTextFile "src/a.ts" = true := by decide
example : isTextFile "Makefile" = true := by decide
example : isTextFile "README" = false := by decide
example : isTextFile "a/" = false := by decide
example : isTextFile "x.bin" = false := by decide

/-- Modelled from the spec: the explicit nested mapping from path
segment to child node that the design notes prescribe for the tree
(children kept in creation order, own entries only).  The source instead
uses a dynamic JS property bag whose bracket lookup traverses the
prototype chain; that semantics is embedded separately below (`JsHeap`,
`jsGet`, `jsInsertParts`, `jsGenerateTreeString`), and the two diverge
on prototype-named segments such as `__proto__`. -/
inductive Node where
  | mk (children : List (String × Node)) : Node
deriving Inhabited

def Node.children : Node → List (String × Node)
  | .mk cs => cs

/-- Lookup in the explicit children mapping (own entries only; the
source's `current[part]` additionally traverses the prototype chain —
see `jsGet` below for that semantics). -/
def getChild : List (String × Node) → String → Option Node
  | [], _ => none
  | (k', v) :: rest, k => if k' = k then some v else getChild rest k

/-- Overwrite the (first) entry with the given key. -/
def setChild : List (String × Node) → String → Node → List (String × Node)
  | [], _, _ => []
  | (k', v') :: rest, k, v =>
    if k' = k then (k, v) :: rest else (k', v') :: setChild rest k v

/-- One `paths.forEach` iteration of the tree build over the explicit
mapping: walk the segments, creating a fresh empty child (appended in
creation order) exactly where no child is present.  The source's bag
version, `jsInsertParts` below, instead applies the falsy guard to the
prototype-chain lookup and so can navigate into and mutate inherited
objects. -/
def insertPath : Node → List String → Node
  | t, [] => t
  | .mk cs, k :: rest =>
    match getChild cs k with
    | some u => .mk (setChild cs k (insertPath u rest))
    | none => .mk (cs ++ [(k, insertPath (.mk []) rest)])

/-- The tree object after inserting every path's segments. -/
def buildTree (paths : List String) : Node :=
  paths.foldl (fun t p => insertPath t (pathSegments p)) (.mk [])

/-- Lexicographic (code-point) order on character lists, the default
string comparison of `Array.prototype.sort`. -/
def charListLe : List Char → List Char → Bool
  | [], _ => true
  | _ :: _, [] => false
  | a :: as, b :: bs =>
    if a.toNat = b.toNat then charListLe as bs
    else decide (a.toNat < b.toNat)

/-- Code-point comparison of strings. -/
def strLeb (a b : String) : Bool :=
  charListLe a.data b.data

/-- Insertion step of sorting the children by key (the effect of
`Object.keys(node).sort()`; keys of one object are distinct, so sorting
the key/child pairs by key is the same as sorting the keys). -/
def insSorted (x : String × Node) : List (String × Node) → List (String × Node)
  | [] => [x]
  | y :: ys => if strLeb x.1 y.1 then x :: y :: ys else y :: insSorted x ys

/-- Children sorted by key, ascending. -/
def sortChildren (cs : List (String × Node)) : List (String × Node) :=
  cs.foldr insSorted []

theorem sortChildren_perm (cs : List (String × Node)) :
    (sortChildren cs).Perm cs := by
  induction cs with
  | nil => exact List.Perm.refl _
  | cons x xs ih =>
    show (insSorted x (sortChildren xs)).Perm (x :: xs)
    have h1 : ∀ (l : List (String × Node)), (insSorted x l).Perm (x :: l) := by
      intro l
      induction l with
      | nil => exact List.Perm.refl _
      | cons y ys ihy =>
        simp only [insSorted]
        split
        · exact List.Perm.refl _
        · exact ((ihy.cons y).trans (List.Perm.swap x y ys)).symm.symm
    exact (h1 (sortChildren xs)).trans (ih.cons x)

theorem perm_sizeOf_eq {α : Type} [SizeOf α] {l₁ l₂ : List α}
    (h : l₁.Perm l₂) : sizeOf l₁ = sizeOf l₂ := by
  induction h with
  | nil => rfl
  | cons x _ ih => simp [ih]
  | swap x y l => simp; omega
  | trans _ _ ih1 ih2 => omega

theorem sizeOf_sortChildren (cs : List (String × Node)) :
    sizeOf (sortChildren cs) = sizeOf cs :=
  perm_sizeOf_eq (sortChildren_perm cs)

theorem sizeOf_children (n : Node) : sizeOf n.children < sizeOf n := by
  cases n with
  | mk cs => simp [Node.children]

/-- One level of the recursive `printTree` body, applied to a sibling
list whose keys are already sorted: each child line carries the
connector chosen by last-sibling position, a `/` suffix for interior
nodes, and the child subtree (rendered by `renderSub`) indented with the
matching continuation. -/
def renderLevel (renderSub : Node → String → String) :
    List (String × Node) → String → String
  | [], _ => ""
  | (k, c) :: rest, pre =>
    let isLast := rest.isEmpty
    let connector := if isLast then "└── " else "├── "
    let childPrefix := if isLast then "    " else "│   "
    let isFile := c.children.isEmpty
    pre ++ connector ++ k ++ (if isFile then "" else "/") ++ "\n" ++
      (if isFile then "" else renderSub c (pre ++ childPrefix)) ++
      renderLevel renderSub rest pre

/-- `printTree` with an explicit recursion-depth bound, an artifact of
embedding the recursion over the nested mapping; `generateTreeString`
supplies `treeFuel`, which exceeds the total number of segments and
hence the depth of the tree. -/
def renderF : Nat → List (String × Node) → String → String
  | 0, _, _ => ""
  | fuel + 1, cs, pre =>
    renderLevel (fun c p => renderF fuel (sortChildren c.children) p) cs pre

/-- Trimming, spelled as character-list surgery so that it evaluates by
kernel reduction; it agrees with `String.trim` on the renderer's output
(whitespace-free interior ends). -/
def trimStr (s : String) : String :=
  String.mk
    (((s.data.dropWhile Char.isWhitespace).reverse.dropWhile
        Char.isWhitespace).reverse)

/-- A recursion-depth bound for rendering the tree of the given paths:
one more than the total number of segments, which exceeds the depth of
`buildTree paths`. -/
def treeFuel (paths : List String) : Nat :=
  1 + (paths.map (fun p => (pathSegments p).length)).sum

/-- Embedding of `generateTreeString`: build the nested tree, print it
from the root with an empty prefix, and trim the result. -/
def generateTreeString (paths : List String) : String :=
  trimStr (renderF (treeFuel paths) (sortChildren (buildTree paths).children) "")

example :
    generateTreeString ["src/a.ts"] = "└── src/\n    └── a.ts" := by decide
example :
    generateTreeString ["b.ts", "a.ts"] = "├── a.ts\n└── b.ts" := by decide

/-- A file produced by the walker (types.ts `ProcessedFile`). -/
structure ProcessedFile where
  path : String
  content : String
  extension : String
deriving DecidableEq

/-- The stats record returned by `processZipFile`. -/
structure Stats where
  fileCount : Nat
  totalSize : Nat
  tokenEstimate : Nat
deriving DecidableEq

/-- The walker's return value. -/
structure ZipResult where
  files : List ProcessedFile
  tree : String
  stats : Stats
deriving DecidableEq

/-- One entry of the loaded archive: its key in `loadedZip.files`, the
directory flag, and the text the entry decodes to. -/
structure ZipEntry where
  path : String
  dir : Bool
  content : String
deriving DecidableEq

/-- An entry survives the walking loop's `continue` chain iff it is not a
directory, not ignored, and classified as text. -/
def includeEntry (e : ZipEntry) : Bool :=
  !e.dir && !shouldIgnore e.path && isTextFile e.path

/-- Embedding of `filename.split('.').pop() || ''`. -/
def entryExtension (path : String) : String :=
  String.mk ((splitChar '.' path.data).getLastD [])

/-- The `ProcessedFile` pushed for a surviving entry. -/
def toProcessedFile (e : ZipEntry) : ProcessedFile :=
  { path := e.path, content := e.content,
    extension := entryExtension e.path }

/-- Progress events of the walking loop: on every fifth entry and
unconditionally on the last one, `10 + floor(count / total * 80)` with the
entry's basename. -/
def walkEvents (entries : List ZipEntry) : List (Nat × String) :=
  let n := entries.length
  (List.range n).filterMap (fun i =>
    if (i + 1) % 5 = 0 ∨ i + 1 = n then
      some (10 + ((i + 1) * 80) / n,
        "Обработка: " ++ basenameOf (entries.getD i ⟨"", false, ""⟩).path)
    else none)

/-- Every `(percent, message)` pair `processZipFile` passes to its
`onProgress` callback, in call order. -/
def progressEvents (entries : List ZipEntry) : List (Nat × String) :=
  (5, "Чтение ZIP архива...") ::
    (if entries.isEmpty then [(100, "Архив пустой")]
     else (10, "Анализ файлов...") :: walkEvents entries)

/-- Embedding of `processZipFile` on a successfully loaded archive: the
returned `{files, tree, stats}` record paired with the trace of progress
callbacks.  The loop's accumulation is expressed as filter/map/sum over
the entry list. -/
def processZipFile (entries : List ZipEntry) :
    ZipResult × List (Nat × String) :=
  if entries.isEmpty then
    ({ files := [], tree := "(Empty Archive)",
       stats := { fileCount := 0, totalSize := 0, tokenEstimate := 0 } },
     progressEvents entries)
  else
    let included := entries.filter includeEntry
    let files := included.map toProcessedFile
    let paths := included.map ZipEntry.path
    let totalSize := (included.map (fun e => e.content.utf8ByteSize)).sum
    ({ files := files,
       tree := generateTreeString paths,
       stats := { fileCount := files.length, totalSize := totalSize,
                  tokenEstimate := (totalSize + 3) / 4 } },
     progressEvents entries)

/-- The container boundary: `zip.loadAsync` either yields the entry list
or fails, in which case `processZipFile` throws the corrupt-archive
error. -/
def processZip (loaded : Option (List ZipEntry)) :
    Except String (ZipResult × List (Nat × String)) :=
  match loaded with
  | none => .error "Не удалось открыть ZIP файл. Возможно он поврежден."
  | some entries => .ok (processZipFile entries)

/-- Maximal runs of backticks, accumulator form of `content.match(/`+/g)`. -/
def runsAux : List Char → Nat → List Nat
  | [], acc => if acc = 0 then [] else [acc]
  | c :: rest, acc =>
    if c = '`' then runsAux rest (acc + 1)
    else if acc = 0 then runsAux rest 0
    else acc :: runsAux rest 0

/-- The lengths of the maximal backtick runs of a string, in order. -/
def backtickRuns (s : String) : List Nat :=
  runsAux s.data 0

/-- The per-file fence length: start at 3; every run at least as long as
the current fence raises it to that run's length plus one. -/
def computeFence (content : String) : Nat :=
  (backtickRuns content).foldl
    (fun fenceLength len => if fenceLength ≤ len then len + 1 else fenceLength) 3

/-- The section `createMarkdownContent` appends for one file. -/
def fileSection (f : ProcessedFile) : String :=
  let fence := String.mk (List.replicate (computeFence f.content) '`')
  "### " ++ f.path ++ "\n" ++ fence ++ f.extension ++ "\n" ++ f.content ++
    "\n" ++ fence ++ "\n\n"

/-- Embedding of `createMarkdownContent`. -/
def createMarkdownContent (repoName tree : String)
    (files : List ProcessedFile) : String :=
  "# Project: " ++ repoName ++ "\n\n" ++
    "## 📂 Project Structure\n\n```\n" ++ tree ++ "\n```\n\n" ++
    "## 💻 File Contents\n\n" ++
    String.join (files.map fileSection)

example : computeFence "x\n````\ny" = 5 := by decide
example : computeFence "plain" = 3 := by decide
example : computeFence "a``b```c" = 4 := by decide
example :
    processZipFile [⟨"src/a.ts", false, "hello"⟩] =
      ({ files := [⟨"src/a.ts", "hello", "ts"⟩],
         tree := "└── src/\n    └── a.ts",
         stats := { fileCount := 1, totalSize := 5, tokenEstimate := 2 } },
       [(5, "Чтение ZIP архива..."), (10, "Анализ файлов..."),
        (90, "Обработка: a.ts")]) := by decide
example :
    (processZipFile [⟨"node_modules/x.js", false, "hi"⟩]).1.stats.fileCount
      = 0 := by decide

theorem splitChar_ne_nil (sep : Char) (l : List Char) :
    splitChar sep l ≠ [] := by
  cases l with
  | nil => simp [splitChar]
  | cons c rest =>
    simp only [splitChar]
    cases h : splitChar sep rest with
    | nil => simp
    | cons s ss =>
      show (if c = sep then [] :: s :: ss else (c :: s) :: ss) ≠ []
      split <;> simp

theorem splitChar_cons_sep (sep : Char) (l : List Char) :
    splitChar sep (sep :: l) = [] :: splitChar sep l := by
  simp only [splitChar]
  cases h : splitChar sep l with
  | nil => exact absurd h (splitChar_ne_nil sep l)
  | cons s ss => simp

theorem splitChar_eq_single (sep : Char) (l : List Char)
    (h : ∀ c ∈ l, c ≠ sep) : splitChar sep l = [l] := by
  induction l with
  | nil => rfl
  | cons c rest ih =>
    have hc : c ≠ sep := h c (List.mem_cons_self c rest)
    have ih' := ih (fun x hx => h x (List.mem_cons_of_mem c hx))
    simp [splitChar, ih', hc]

theorem splitChar_single_arg (sep : Char) (l : List Char) (s : List Char)
    (h : splitChar sep l = [s]) : s = l := by
  induction l generalizing s with
  | nil =>
    simp only [splitChar, List.cons.injEq] at h
    exact h.1.symm
  | cons c rest ih =>
    simp only [splitChar] at h
    cases hs : splitChar sep rest with
    | nil => exact absurd hs (splitChar_ne_nil sep rest)
    | cons s' ss =>
      rw [hs] at h
      by_cases hc : c = sep
      · simp [hc] at h
      · simp only [if_neg hc, List.cons.injEq] at h
        obtain ⟨h1, h2⟩ := h
        have hss : s' = rest := ih s' (by rw [hs, h2])
        rw [← h1, hss]

theorem mem_iff_splitChar_length (sep : Char) (l : List Char) :
    sep ∈ l ↔ 2 ≤ (splitChar sep l).length := by
  induction l with
  | nil => simp [splitChar]
  | cons c rest ih =>
    simp only [splitChar]
    cases hs : splitChar sep rest with
    | nil => exact absurd hs (splitChar_ne_nil sep rest)
    | cons s ss =>
      rw [hs] at ih
      by_cases hc : c = sep
      · subst hc
        simp
      · simp only [if_neg hc]
        simp only [List.length_cons] at ih ⊢
        constructor
        · intro hmem
          rcases List.mem_cons.mp hmem with h1 | h1
          · exact absurd h1.symm hc
          · exact ih.mp h1
        · intro hlen
          exact List.mem_cons_of_mem c (ih.mpr hlen)

theorem getLastD_splitChar (sep : Char) (l : List Char) :
    (splitChar sep l).getLastD [] =
      (l.reverse.takeWhile (fun c => c != sep)).reverse := by
  induction l with
  | nil => simp [splitChar]
  | cons c rest ih =>
    cases hs : splitChar sep rest with
    | nil => exact absurd hs (splitChar_ne_nil sep rest)
    | cons s ss =>
      by_cases hc : c = sep
      · rw [hc, splitChar_cons_sep]
        have hL : ([] :: splitChar sep rest).getLastD [] =
            (splitChar sep rest).getLastD [] := by
          rw [hs]
          simp [List.getLastD_eq_getLast?, List.getLast?_cons_cons]
        rw [hL, ih]
        have hR : (sep :: rest).reverse.takeWhile (fun c => c != sep) =
            rest.reverse.takeWhile (fun c => c != sep) := by
          rw [List.reverse_cons, List.takeWhile_append]
          split
          · next hlen =>
            have hfull : rest.reverse.takeWhile (fun c => c != sep) =
                rest.reverse :=
              (List.takeWhile_prefix _).eq_of_length hlen
            simp [hfull]
          · rfl
        rw [hR]
      · have hunf : splitChar sep (c :: rest) = (c :: s) :: ss := by
          simp only [splitChar]
          rw [hs]
          simp [hc]
        rw [hunf]
        cases ss with
        | nil =>
          have hsrest : s = rest := splitChar_single_arg sep rest s hs
          have hnomem : sep ∉ rest := by
            rw [mem_iff_splitChar_length, hs]
            simp
          have hall : rest.reverse.takeWhile (fun c => c != sep) =
              rest.reverse := by
            rw [List.takeWhile_eq_self_iff]
            intro x hx
            have hxr : x ∈ rest := List.mem_reverse.mp hx
            have hxs : x ≠ sep := fun he => hnomem (he ▸ hxr)
            simpa using hxs
          rw [hsrest, List.reverse_cons, List.takeWhile_append]
          simp [hall, hc]
        | cons s' t =>
          have hL : ((c :: s) :: s' :: t).getLastD [] =
              (s :: s' :: t).getLastD [] := by
            simp [List.getLastD_eq_getLast?, List.getLast?_cons_cons]
          rw [hL, ← hs, ih]
          have hmem : sep ∈ rest := by
            rw [mem_iff_splitChar_length, hs]
            simp
          have hnotfull : ¬ (rest.reverse.takeWhile
              (fun c => c != sep)).length = rest.reverse.length := by
            intro hlen
            have hfull : rest.reverse.takeWhile (fun c => c != sep) =
                rest.reverse :=
              (List.takeWhile_prefix _).eq_of_length hlen
            rw [List.takeWhile_eq_self_iff] at hfull
            have := hfull sep (List.mem_reverse.mpr hmem)
            simp at this
          rw [List.reverse_cons, List.takeWhile_append, if_neg hnotfull]

theorem fence_foldl_le (l : List Nat) (acc : Nat) :
    acc ≤ l.foldl
      (fun fenceLength len =>
        if fenceLength ≤ len then len + 1 else fenceLength) acc := by
  induction l generalizing acc with
  | nil => exact Nat.le_refl acc
  | cons r rs ih =>
    refine Nat.le_trans ?_ (ih _)
    dsimp only
    split <;> omega

theorem fence_foldl_gt (l : List Nat) (acc : Nat) :
    ∀ r ∈ l, r < l.foldl
      (fun fenceLength len =>
        if fenceLength ≤ len then len + 1 else fenceLength) acc := by
  induction l generalizing acc with
  | nil => intro r hr; cases hr
  | cons x xs ih =>
    intro r hr
    rcases List.mem_cons.mp hr with h1 | h1
    · subst h1
      refine Nat.lt_of_lt_of_le ?_ (fence_foldl_le xs _)
      dsimp only
      split <;> omega
    · exact ih _ r h1

/-- C1: every file packed by `createMarkdownContent` gets a fence strictly
longer than every maximal backtick run of its own content (the fold starts
at 3 and bumps past any run at least as long as the current fence), and
the fence length is chosen per file: a file with a four-backtick run gets
a five-backtick fence while a sibling file keeps the three-backtick
default. -/
theorem c1_fence_safety :
    (∀ (content : String), ∀ r ∈ backtickRuns content,
        r < computeFence content)
    ∧ createMarkdownContent "r" "t"
        [⟨"a.md", "x\n````\ny", "md"⟩, ⟨"b.md", "hi", "md"⟩] =
      "# Project: r\n\n## 📂 Project Structure\n\n```\nt\n```\n\n## 💻 File Contents\n\n### a.md\n`````md\nx\n````\ny\n`````\n\n### b.md\n```md\nhi\n```\n\n" := by
  constructor
  · intro content r hr
    exact fence_foldl_gt (backtickRuns content) 3 r hr
  · decide

theorem c1_fence_safety_witness :
    4 ∈ backtickRuns "x\n````\ny" ∧ 4 < computeFence "x\n````\ny" :=
  ⟨by decide, c1_fence_safety.1 "x\n````\ny" 4 (by decide)⟩

/-- The substring of `p` after the final `.` of the whole path — the
whole path when it contains no `.`; this is what `split('.').pop() || ''`
computes on the full path. -/
def lastDotSuffix (p : String) : String :=
  String.mk ((p.data.reverse.takeWhile (fun c => c != '.')).reverse)

/-- Modelled from the spec's words for the extension field: the substring
after the final `.` in the basename, empty when the basename has no dot. -/
def specBasenameExtension (p : String) : String :=
  let b := basenameOf p
  if '.' ∈ b.data then
    String.mk ((b.data.reverse.takeWhile (fun c => c != '.')).reverse)
  else ""

/-- C2 counterexample: the entry `Makefile` passes the classifier via the
extensionless allow-list, and the produced `ProcessedFile.extension` is
`"Makefile"` — the last piece of the full path split on `.` — whereas
the claimed basename rule yields the empty string. -/
theorem c2_extension_counterexample :
    ((processZipFile [⟨"Makefile", false, "all:"⟩]).1.files.map
        ProcessedFile.extension) = ["Makefile"]
    ∧ specBasenameExtension "Makefile" = ""
    ∧ ("Makefile" : String) ≠ "" := by
  exact ⟨by decide, by decide, by decide⟩

/-- C2 (amended): every `ProcessedFile` produced by `processZipFile` has
`extension` equal to the substring after the final `.` of the entry's
full path — the entire path when it contains no `.` — rather than of its
basename. -/
theorem c2_extension_amended (entries : List ZipEntry) (f : ProcessedFile)
    (hf : f ∈ (processZipFile entries).1.files) :
    f.extension = lastDotSuffix f.path := by
  simp only [processZipFile] at hf
  split at hf
  · simp at hf
  · simp only [List.mem_map] at hf
    obtain ⟨e, _, rfl⟩ := hf
    show entryExtension e.path = lastDotSuffix e.path
    unfold entryExtension lastDotSuffix
    rw [getLastD_splitChar]

theorem c2_extension_amended_witness :
    (⟨"a.ts", "x", "ts"⟩ : ProcessedFile) ∈
        (processZipFile [⟨"a.ts", false, "x"⟩]).1.files
    ∧ (⟨"a.ts", "x", "ts"⟩ : ProcessedFile).extension = lastDotSuffix "a.ts" :=
  ⟨by decide,
   c2_extension_amended [⟨"a.ts", false, "x"⟩] ⟨"a.ts", "x", "ts"⟩ (by decide)⟩

theorem pathSegments_leading_slash (p : String) :
    pathSegments ("/" ++ p) = "" :: pathSegments p := by
  unfold pathSegments
  have hd : ("/" ++ p).data = '/' :: p.data := by
    rw [String.data_append]
    rfl
  rw [hd, splitChar_cons_sep]
  rfl

theorem pathSegments_ne_nil (p : String) : pathSegments p ≠ [] := by
  unfold pathSegments
  intro h
  exact splitChar_ne_nil '/' p.data (List.map_eq_nil_iff.mp h)

/-- C3 counterexample: `shouldIgnore` is not independent of a trailing
slash — a trailing slash empties the final segment, so the ignored-file
match for `yarn.lock` is lost. -/
theorem c3_ignore_counterexample :
    shouldIgnore "yarn.lock" = true ∧ shouldIgnore "yarn.lock/" = false := by
  decide

/-- C3 (amended): `shouldIgnore p` is true iff some `/`-delimited segment
of `p` equals a member of the ignored-directory list or the final segment
equals a member of the ignored-file list (so the result depends only on
the segments, not on path depth), and the result is unchanged by a
leading slash; it is not independent of a trailing slash, which replaces
the final segment by the empty string. -/
theorem c3_ignore_characterization :
    (∀ p : String, shouldIgnore p = true ↔
      ((∃ part ∈ pathSegments p, part ∈ IGNORE_DIRS) ∨
        (pathSegments p).getLastD "" ∈ IGNORE_FILES))
    ∧ (∀ p : String, shouldIgnore ("/" ++ p) = shouldIgnore p) := by
  constructor
  · intro p
    simp only [shouldIgnore]
    constructor
    · intro h
      split at h
      · next hany =>
        left
        obtain ⟨part, hmem, hc⟩ := List.any_eq_true.mp hany
        exact ⟨part, hmem, (List.elem_iff).mp hc⟩
      · split at h
        · next hfile =>
          right
          exact (List.elem_iff).mp hfile
        · exact absurd h (by simp)
    · intro h
      rcases h with ⟨part, hmem, hdir⟩ | hfile
      · have hany : (pathSegments p).any
            (fun part => IGNORE_DIRS.contains part) = true :=
          List.any_eq_true.mpr ⟨part, hmem, (List.elem_iff).mpr hdir⟩
        simp [hany]
        exact Or.inl ⟨part, hmem, hdir⟩
      · by_cases hany : (pathSegments p).any
            (fun part => IGNORE_DIRS.contains part) = true
        · obtain ⟨part, hmem, hc⟩ := List.any_eq_true.mp hany
          simp [hany]
          exact Or.inl ⟨part, hmem, (List.elem_iff).mp hc⟩
        · rw [List.getLastD_eq_getLast?] at hfile
          simp [hany]
          exact Or.inr hfile
  · intro p
    simp only [shouldIgnore, pathSegments_leading_slash]
    have hlast : ("" :: pathSegments p).getLastD "" =
        (pathSegments p).getLastD "" := List.getLastD_cons "" "" _
    rw [hlast]
    simp [show ("" : String) ∉ IGNORE_DIRS by decide]

theorem c3_ignore_characterization_witness :
    shouldIgnore "a/node_modules/b.js" = true ∧
      shouldIgnore "/a/node_modules/b.js" = shouldIgnore "a/node_modules/b.js" :=
  ⟨(c3_ignore_characterization.1 "a/node_modules/b.js").mpr
      (Or.inl ⟨"node_modules", by decide, by decide⟩),
   c3_ignore_characterization.2 "a/node_modules/b.js"⟩

theorem toLower_ne_dot (c : Char) (h : c ≠ '.') : c.toLower ≠ '.' := by
  simp only [Char.toLower]
  split
  · next hcond =>
    intro hc
    have h2 : (Char.ofNat (c.toNat + 32)).toNat = '.'.toNat := by rw [hc]
    have hv : (c.toNat + 32).isValidChar := by
      apply Or.inl
      simp only [Char.toNat] at hcond ⊢
      omega
    rw [Char.ofNat, dif_pos hv] at h2
    simp only [Char.ofNatAux, Char.toNat] at h2 hcond
    have hd : ('.'.val.toNat) = 46 := by decide
    rw [hd] at h2
    simp only [UInt32.toNat, BitVec.toNat_ofNatLt] at h2 hcond
    omega
  · exact h

/-- C4: a filename whose basename contains no `.` and whose lower-cased
basename is not one of the five extensionless allow-listed names is never
classified as text. -/
theorem c4_extensionless_binary (f : String)
    (h1 : ('.' : Char) ∉ (basenameOf f).data)
    (h2 : toLowerStr (basenameOf f) ∉
      (["dockerfile", "makefile", "license", "jenkinsfile",
        "vagrantfile"] : List String)) :
    isTextFile f = false := by
  simp only [isTextFile]
  split
  · rfl
  · split
    · next hcontains =>
      exact absurd ((List.elem_iff).mp hcontains) h2
    · have hdata : (toLowerStr (basenameOf f)).data =
          (basenameOf f).data.map Char.toLower := rfl
      have hnodot : ∀ c ∈ (toLowerStr (basenameOf f)).data, c ≠ '.' := by
        rw [hdata]
        intro c hc
        obtain ⟨c0, hc0, rfl⟩ := List.mem_map.mp hc
        exact toLower_ne_dot c0 (fun he => h1 (he ▸ hc0))
      have hsingle : splitChar '.' (toLowerStr (basenameOf f)).data =
          [(toLowerStr (basenameOf f)).data] :=
        splitChar_eq_single '.' _ hnodot
      rw [hsingle]
      rfl

theorem c4_extensionless_binary_witness :
    (('.' : Char) ∉ (basenameOf "README").data)
    ∧ isTextFile "README" = false :=
  ⟨by decide, c4_extensionless_binary "README" (by decide) (by decide)⟩

/-- C9: both classifier predicates are total Boolean functions — on every
string they return `true` or `false` (the embedding has no exceptional
exit) — and on the empty (segmentless) path both return `false`. -/
theorem c9_totality :
    (∀ p : String, shouldIgnore p = true ∨ shouldIgnore p = false)
    ∧ (∀ f : String, isTextFile f = true ∨ isTextFile f = false)
    ∧ shouldIgnore "" = false ∧ isTextFile "" = false :=
  ⟨fun p => by cases shouldIgnore p <;> simp,
   fun f => by cases isTextFile f <;> simp,
   by decide, by decide⟩

/-- C10: the later revision's ignore predicate refines the earlier one —
whatever the earlier revision ignores, the later revision ignores too;
both compute the same segment-matching rule `ignoreBy`, the later one
over superset ignore lists (adding `bin`, `obj` and `thumbs.db`). -/
theorem c10_ignore_refinement :
    (∀ p : String, shouldIgnore_v1 p = true → shouldIgnore p = true)
    ∧ (∀ p : String,
        shouldIgnore_v1 p = ignoreBy IGNORE_DIRS_v1 IGNORE_FILES_v1 p)
    ∧ (∀ p : String, shouldIgnore p = ignoreBy IGNORE_DIRS IGNORE_FILES p)
    ∧ IGNORE_DIRS_v1 ⊆ IGNORE_DIRS
    ∧ IGNORE_FILES_v1 ⊆ IGNORE_FILES := by
  have hdirs : IGNORE_DIRS_v1 ⊆ IGNORE_DIRS := by
    intro x hx
    fin_cases hx <;> decide
  have hfiles : IGNORE_FILES_v1 ⊆ IGNORE_FILES := by
    intro x hx
    fin_cases hx <;> decide
  refine ⟨?_, fun p => rfl, fun p => rfl, hdirs, hfiles⟩
  intro p h
  simp only [shouldIgnore_v1] at h
  simp only [shouldIgnore]
  split at h
  · next hany =>
    obtain ⟨part, hmem, hc⟩ := List.any_eq_true.mp hany
    have hc2 : IGNORE_DIRS.contains part = true :=
      (List.elem_iff).mpr (hdirs ((List.elem_iff).mp hc))
    have : (pathSegments p).any
        (fun part => IGNORE_DIRS.contains part) = true :=
      List.any_eq_true.mpr ⟨part, hmem, hc2⟩
    simp [this]
    exact Or.inl ⟨part, hmem, (List.elem_iff).mp hc2⟩
  · split at h
    · next hfile =>
      have hf2 : (pathSegments p).getLastD "" ∈ IGNORE_FILES :=
        hfiles ((List.elem_iff).mp hfile)
      split
      · rfl
      · rw [List.getLastD_eq_getLast?] at hf2
        simp [(List.elem_iff).mpr hf2]
        exact hf2
    · exact absurd h (by simp)

theorem c10_ignore_refinement_witness :
    shouldIgnore ".git/config" = true ∧ (".git" : String) ∈ IGNORE_DIRS :=
  ⟨c10_ignore_refinement.1 ".git/config" (by decide),
   c10_ignore_refinement.2.2.2.1 (by decide)⟩

/-- C5: in every run, `totalSize` is the sum of the UTF-8 byte lengths of
the included files' decoded contents, `tokenEstimate` is the ceiling of
`totalSize / 4`, and therefore `4 * tokenEstimate - totalSize` lies
between 0 and 3. -/
theorem c5_stats_invariant (entries : List ZipEntry) :
    (processZipFile entries).1.stats.totalSize =
      ((processZipFile entries).1.files.map
        (fun f => f.content.utf8ByteSize)).sum
    ∧ (processZipFile entries).1.stats.tokenEstimate =
      ((processZipFile entries).1.stats.totalSize + 3) / 4
    ∧ (processZipFile entries).1.stats.totalSize ≤
      4 * (processZipFile entries).1.stats.tokenEstimate
    ∧ 4 * (processZipFile entries).1.stats.tokenEstimate ≤
      (processZipFile entries).1.stats.totalSize + 3 := by
  simp only [processZipFile]
  split
  · simp
  · simp only [List.map_map]
    refine ⟨?_, trivial, ?_, ?_⟩
    · rfl
    · omega
    · omega

/-- C6: an archive that loads with zero entries is a normal terminal
case, not an error: the walker reports 100% progress with the
empty-archive message and returns the empty file list, the sentinel tree
string, and all-zero stats. -/
theorem c6_empty_archive :
    processZip (some []) =
      Except.ok
        ({ files := [], tree := "(Empty Archive)",
           stats := { fileCount := 0, totalSize := 0, tokenEstimate := 0 } },
         [(5, "Чтение ZIP архива..."), (100, "Архив пустой")]) := rfl

theorem walkEvents_mem (entries : List ZipEntry) (e : Nat × String)
    (he : e ∈ walkEvents entries) :
    ∃ i, i < entries.length ∧ ((i + 1) % 5 = 0 ∨ i + 1 = entries.length) ∧
      e = (10 + ((i + 1) * 80) / entries.length,
        "Обработка: " ++ basenameOf (entries.getD i ⟨"", false, ""⟩).path) := by
  simp only [walkEvents, List.mem_filterMap] at he
  obtain ⟨i, hi, hsome⟩ := he
  refine ⟨i, List.mem_range.mp hi, ?_, ?_⟩
  · by_contra hcond
    rw [if_neg hcond] at hsome
    exact Option.noConfusion hsome
  · by_cases hcond : ((i + 1) % 5 = 0 ∨ i + 1 = entries.length)
    · rw [if_pos hcond] at hsome
      exact (Option.some.inj hsome).symm
    · rw [if_neg hcond] at hsome
      exact absurd hsome (by simp)

theorem walkEvents_present (entries : List ZipEntry) (i : Nat)
    (hlt : i < entries.length)
    (hcond : (i + 1) % 5 = 0 ∨ i + 1 = entries.length) :
    (10 + ((i + 1) * 80) / entries.length,
      "Обработка: " ++ basenameOf (entries.getD i ⟨"", false, ""⟩).path)
      ∈ walkEvents entries := by
  simp only [walkEvents, List.mem_filterMap]
  exact ⟨i, List.mem_range.mpr hlt, by rw [if_pos hcond]⟩

theorem walkEvents_bounds (entries : List ZipEntry) :
    ∀ e ∈ walkEvents entries, 10 ≤ e.1 ∧ e.1 ≤ 90 := by
  intro e he
  obtain ⟨i, hi, _, rfl⟩ := walkEvents_mem entries e he
  have hpos : 0 < entries.length := by omega
  have h1 : (i + 1) * 80 ≤ entries.length * 80 := by omega
  have h2 : ((i + 1) * 80) / entries.length ≤
      (entries.length * 80) / entries.length := Nat.div_le_div_right h1
  have h3 : entries.length * 80 / entries.length = 80 :=
    Nat.mul_div_cancel_left 80 hpos
  have h4 : ((i + 1) * 80) / entries.length ≤ 80 := h2.trans h3.le
  refine ⟨?_, ?_⟩
  · show 10 ≤ 10 + ((i + 1) * 80) / entries.length
    exact Nat.le_add_right 10 _
  · show 10 + ((i + 1) * 80) / entries.length ≤ 90
    calc 10 + ((i + 1) * 80) / entries.length
        ≤ 10 + 80 := Nat.add_le_add_left h4 10
      _ = 90 := rfl

theorem walkEvents_pairwise (entries : List ZipEntry) :
    List.Pairwise (fun a b => a.1 ≤ b.1) (walkEvents entries) := by
  unfold walkEvents
  refine List.Pairwise.filterMap _ ?_ (List.pairwise_lt_range entries.length)
  intro i j hij x hx y hy
  by_cases hci : ((i + 1) % 5 = 0 ∨ i + 1 = entries.length)
  · rw [if_pos hci] at hx
    by_cases hcj : ((j + 1) % 5 = 0 ∨ j + 1 = entries.length)
    · rw [if_pos hcj] at hy
      simp only [Option.mem_def, Option.some.injEq] at hx hy
      rw [← hx, ← hy]
      have hmul : (i + 1) * 80 ≤ (j + 1) * 80 := by omega
      have hdiv : (i + 1) * 80 / entries.length ≤
          (j + 1) * 80 / entries.length := Nat.div_le_div_right hmul
      show 10 + ((i + 1) * 80) / entries.length ≤
        10 + ((j + 1) * 80) / entries.length
      exact Nat.add_le_add_left hdiv 10
    · rw [if_neg hcj] at hy
      exact absurd hy (by simp)
  · rw [if_neg hci] at hx
    exact absurd hx (by simp)

/-- C8: over one run of `processZipFile` the percents passed to
`onProgress` are monotonically nondecreasing and bounded by 100; the
walking loop's events all lie in the reserved 10–90 sub-range, an event
is emitted for every fifth entry and unconditionally for the final one,
and for a nonempty archive the final entry's event carries exactly 90. -/
theorem c8_progress_monotone (entries : List ZipEntry) :
    List.Pairwise (fun a b => a.1 ≤ b.1) (progressEvents entries)
    ∧ (∀ e ∈ progressEvents entries, e.1 ≤ 100)
    ∧ (∀ e ∈ walkEvents entries, 10 ≤ e.1 ∧ e.1 ≤ 90)
    ∧ (∀ i : Nat, i < entries.length →
        ((i + 1) % 5 = 0 ∨ i + 1 = entries.length) →
        (10 + ((i + 1) * 80) / entries.length,
          "Обработка: " ++ basenameOf (entries.getD i ⟨"", false, ""⟩).path)
          ∈ walkEvents entries)
    ∧ (entries ≠ [] → ∃ msg, (90, msg) ∈ walkEvents entries) := by
  refine ⟨?_, ?_, walkEvents_bounds entries, walkEvents_present entries, ?_⟩
  · simp only [progressEvents]
    by_cases hemp : entries.isEmpty
    · rw [if_pos hemp]
      decide
    · rw [if_neg hemp]
      refine List.Pairwise.cons ?_ (List.Pairwise.cons ?_ ?_)
      · intro b hb
        rcases List.mem_cons.mp hb with h | h
        · rw [h]
          decide
        · have := (walkEvents_bounds entries b h).1
          simp only []
          omega
      · intro b hb
        exact (walkEvents_bounds entries b hb).1
      · exact walkEvents_pairwise entries
  · intro e he
    simp only [progressEvents] at he
    rcases List.mem_cons.mp he with h | h
    · rw [h]
      decide
    · by_cases hemp : entries.isEmpty
      · rw [if_pos hemp] at h
        rcases List.mem_singleton.mp h with rfl
        exact Nat.le_refl 100
      · rw [if_neg hemp] at h
        rcases List.mem_cons.mp h with h2 | h2
        · rw [h2]
          decide
        · have := (walkEvents_bounds entries e h2).2
          omega
  · intro hne
    have hpos : 0 < entries.length := List.length_pos.mpr hne
    have hmem := walkEvents_present entries (entries.length - 1)
      (by omega) (Or.inr (by omega))
    have hval : (entries.length - 1 + 1) * 80 / entries.length = 80 := by
      have h1 : entries.length - 1 + 1 = entries.length := by omega
      rw [h1, Nat.mul_div_cancel_left 80 hpos]
    rw [hval] at hmem
    exact ⟨_, hmem⟩

theorem c8_progress_monotone_witness :
    ∃ msg, (90, msg) ∈ walkEvents [⟨"a.ts", false, "x"⟩] :=
  (c8_progress_monotone [⟨"a.ts", false, "x"⟩]).2.2.2.2 (by decide)

/-- The key sequence of a children list. -/
def keysOf (cs : List (String × Node)) : List String :=
  cs.map Prod.fst

theorem getChild_isSome_iff (cs : List (String × Node)) (k : String) :
    (getChild cs k).isSome = true ↔ k ∈ keysOf cs := by
  induction cs with
  | nil => simp [getChild, keysOf]
  | cons x t ih =>
    obtain ⟨k', v⟩ := x
    simp only [getChild, keysOf, List.map_cons, List.mem_cons]
    by_cases h : k' = k
    · simp [h]
    · simp only [if_neg h]
      rw [ih]
      constructor
      · intro hm
        exact Or.inr hm
      · intro hm
        rcases hm with hm | hm
        · exact absurd hm.symm h
        · exact hm
    
theorem getChild_eq_none_iff (cs : List (String × Node)) (k : String) :
    getChild cs k = none ↔ k ∉ keysOf cs := by
  rw [← getChild_isSome_iff]
  cases getChild cs k <;> simp

theorem getChild_some_mem {cs : List (String × Node)} {k : String} {u : Node}
    (h : getChild cs k = some u) : (k, u) ∈ cs := by
  induction cs with
  | nil => simp [getChild] at h
  | cons x t ih =>
    obtain ⟨k', v⟩ := x
    simp only [getChild] at h
    by_cases hk : k' = k
    · rw [if_pos hk] at h
      cases h
      exact hk ▸ List.mem_cons_self _ _
    · rw [if_neg hk] at h
      exact List.mem_cons_of_mem _ (ih h)

theorem getChild_of_mem_nodup {cs : List (String × Node)} {k : String}
    {u : Node} (hnd : (keysOf cs).Nodup) (hm : (k, u) ∈ cs) :
    getChild cs k = some u := by
  induction cs with
  | nil => simp at hm
  | cons x t ih =>
    obtain ⟨k', v⟩ := x
    simp only [keysOf, List.map_cons, List.nodup_cons] at hnd
    rcases List.mem_cons.mp hm with h | h
    · cases h
      simp [getChild]
    · have hk : k' ≠ k := by
        intro he
        exact hnd.1 (he ▸ (List.mem_map.mpr ⟨(k, u), h, rfl⟩))
      simp only [getChild, if_neg hk]
      exact ih hnd.2 h

theorem keysOf_setChild (cs : List (String × Node)) (k : String) (v : Node) :
    keysOf (setChild cs k v) = keysOf cs := by
  induction cs with
  | nil => rfl
  | cons x t ih =>
    obtain ⟨k', v'⟩ := x
    simp only [setChild]
    by_cases h : k' = k
    · simp [keysOf, h]
    · simp only [if_neg h, keysOf, List.map_cons]
      simp only [keysOf] at ih
      rw [ih]

theorem getChild_setChild_self {cs : List (String × Node)} {k : String}
    {u : Node} (h : getChild cs k = some u) (v : Node) :
    getChild (setChild cs k v) k = some v := by
  induction cs with
  | nil => simp [getChild] at h
  | cons x t ih =>
    obtain ⟨k', v'⟩ := x
    simp only [getChild, setChild] at h ⊢
    by_cases hk : k' = k
    · simp [hk, getChild]
    · rw [if_neg hk] at h
      simp only [if_neg hk, getChild, if_neg hk]
      exact ih h

theorem getChild_setChild_other {cs : List (String × Node)} {k k' : String}
    (hne : k' ≠ k) (v : Node) :
    getChild (setChild cs k v) k' = getChild cs k' := by
  induction cs with
  | nil => rfl
  | cons x t ih =>
    obtain ⟨k0, v0⟩ := x
    by_cases hk : k0 = k
    · simp only [setChild, if_pos hk, getChild]
      have h1 : ¬ k = k' := fun h => hne h.symm
      have h2 : ¬ k0 = k' := fun h => hne (h.symm.trans hk)
      rw [if_neg h1, if_neg h2]
    · simp only [setChild, if_neg hk, getChild]
      by_cases hk0 : k0 = k'
      · simp [hk0]
      · simp only [if_neg hk0]
        exact ih

theorem setChild_of_getChild_none {cs : List (String × Node)} {k : String}
    (h : getChild cs k = none) (v : Node) : setChild cs k v = cs := by
  induction cs with
  | nil => rfl
  | cons x t ih =>
    obtain ⟨k', v'⟩ := x
    simp only [getChild] at h
    by_cases hk : k' = k
    · rw [if_pos hk] at h
      exact absurd h (by simp)
    · rw [if_neg hk] at h
      simp only [setChild, if_neg hk]
      rw [ih h]

theorem mem_setChild {cs : List (String × Node)} {k : String} {v : Node}
    {x : String × Node} (h : x ∈ setChild cs k v) : x ∈ cs ∨ x = (k, v) := by
  induction cs with
  | nil => simp [setChild] at h
  | cons y t ih =>
    obtain ⟨k', v'⟩ := y
    simp only [setChild] at h
    by_cases hk : k' = k
    · rw [if_pos hk] at h
      rcases List.mem_cons.mp h with h1 | h1
      · exact Or.inr h1
      · exact Or.inl (List.mem_cons_of_mem _ h1)
    · rw [if_neg hk] at h
      rcases List.mem_cons.mp h with h1 | h1
      · exact Or.inl (h1 ▸ List.mem_cons_self _ _)
      · rcases ih h1 with h2 | h2
        · exact Or.inl (List.mem_cons_of_mem _ h2)
        · exact Or.inr h2

theorem setChild_cons_eq {t : List (String × Node)} {k0 k : String}
    (h : k0 = k) (v0 v : Node) :
    setChild ((k0, v0) :: t) k v = (k, v) :: t := by
  simp [setChild, h]

theorem setChild_cons_ne {t : List (String × Node)} {k0 k : String}
    (h : ¬ k0 = k) (v0 v : Node) :
    setChild ((k0, v0) :: t) k v = (k0, v0) :: setChild t k v := by
  simp [setChild, h]

theorem setChild_setChild (cs : List (String × Node)) (k : String)
    (v w : Node) : setChild (setChild cs k v) k w = setChild cs k w := by
  induction cs with
  | nil => rfl
  | cons x t ih =>
    obtain ⟨k', v'⟩ := x
    by_cases hk : k' = k
    · rw [setChild_cons_eq hk, setChild_cons_eq rfl, setChild_cons_eq hk]
    · rw [setChild_cons_ne hk, setChild_cons_ne hk, setChild_cons_ne hk, ih]

theorem setChild_comm {cs : List (String × Node)} {k k' : String}
    (hne : k ≠ k') (v w : Node) :
    setChild (setChild cs k v) k' w = setChild (setChild cs k' w) k v := by
  induction cs with
  | nil => rfl
  | cons x t ih =>
    obtain ⟨k0, v0⟩ := x
    by_cases h1 : k0 = k
    · have h2 : ¬ k0 = k' := fun h => hne (h1.symm.trans h)
      have h3 : ¬ k = k' := hne
      rw [setChild_cons_eq h1, setChild_cons_ne h3, setChild_cons_ne h2,
        setChild_cons_eq h1]
    · by_cases h2 : k0 = k'
      · have h3 : ¬ k' = k := fun h => hne h.symm
        rw [setChild_cons_ne h1, setChild_cons_eq h2, setChild_cons_eq h2,
          setChild_cons_ne h3]
      · rw [setChild_cons_ne h1, setChild_cons_ne h2, setChild_cons_ne h2,
          setChild_cons_ne h1, ih]

theorem getChild_append_left {cs l : List (String × Node)} {k : String}
    {u : Node} (h : getChild cs k = some u) :
    getChild (cs ++ l) k = some u := by
  induction cs with
  | nil => simp [getChild] at h
  | cons x t ih =>
    obtain ⟨k', v⟩ := x
    simp only [getChild, List.cons_append] at h ⊢
    by_cases hk : k' = k
    · rwa [if_pos hk] at h ⊢
    · rw [if_neg hk] at h ⊢
      exact ih h

theorem getChild_append_right {cs : List (String × Node)}
    (l : List (String × Node)) {k : String} (h : getChild cs k = none) :
    getChild (cs ++ l) k = getChild l k := by
  induction cs with
  | nil => rfl
  | cons x t ih =>
    obtain ⟨k', v⟩ := x
    simp only [getChild, List.cons_append] at h ⊢
    by_cases hk : k' = k
    · rw [if_pos hk] at h
      exact absurd h (by simp)
    · rw [if_neg hk] at h ⊢
      exact ih h

theorem setChild_append_left {cs l : List (String × Node)} {k : String}
    {u : Node} (h : getChild cs k = some u) (v : Node) :
    setChild (cs ++ l) k v = setChild cs k v ++ l := by
  induction cs with
  | nil => simp [getChild] at h
  | cons x t ih =>
    obtain ⟨k', v'⟩ := x
    simp only [getChild] at h
    by_cases hk : k' = k
    · rw [List.cons_append, setChild_cons_eq hk, setChild_cons_eq hk,
        List.cons_append]
    · rw [if_neg hk] at h
      rw [List.cons_append, setChild_cons_ne hk, setChild_cons_ne hk,
        List.cons_append, ih h]

theorem setChild_append_new {cs : List (String × Node)} {k : String}
    (h : getChild cs k = none) (u v : Node) :
    setChild (cs ++ [(k, u)]) k v = cs ++ [(k, v)] := by
  induction cs with
  | nil => simp [setChild]
  | cons x t ih =>
    obtain ⟨k', v'⟩ := x
    simp only [getChild] at h
    by_cases hk : k' = k
    · rw [if_pos hk] at h
      exact absurd h (by simp)
    · rw [if_neg hk] at h
      rw [List.cons_append, setChild_cons_ne hk, ih h, List.cons_append]

theorem sizeOf_snd_lt_of_mem {cs : List (String × Node)} {k : String}
    {u : Node} (h : (k, u) ∈ cs) : sizeOf u < sizeOf cs := by
  induction cs with
  | nil => simp at h
  | cons x t ih =>
    rcases List.mem_cons.mp h with h1 | h1
    · rw [← h1]
      simp
      omega
    · have := ih h1
      simp
      omega

theorem sizeOf_snd_lt_of_mem_node {cs : List (String × Node)} {k : String}
    {u : Node} (h : (k, u) ∈ cs) : sizeOf u < sizeOf (Node.mk cs) := by
  have := sizeOf_snd_lt_of_mem h
  simp
  omega

/-- Dictionary equivalence of two trees: the same keys are present at
every level, and the subtrees at matching keys are again equivalent;
child order may differ. -/
inductive NEq : Node → Node → Prop where
  | mk : ∀ cs₁ cs₂,
      (∀ k, (getChild cs₁ k).isSome = (getChild cs₂ k).isSome) →
      (∀ k u₁ u₂, getChild cs₁ k = some u₁ → getChild cs₂ k = some u₂ →
        NEq u₁ u₂) →
      NEq (.mk cs₁) (.mk cs₂)

/-- Well-formedness: at every level the keys are distinct (true of any
tree arising from a JS object, whose own property names are unique). -/
inductive NodeWF : Node → Prop where
  | mk : ∀ cs, (keysOf cs).Nodup → (∀ x ∈ cs, NodeWF x.2) →
      NodeWF (.mk cs)

theorem neqRefl : ∀ t : Node, NEq t t
  | .mk cs =>
    NEq.mk cs cs (fun _ => rfl)
      (fun k u₁ u₂ h₁ h₂ => by
        rw [h₁] at h₂
        cases h₂
        exact neqRefl u₁)
termination_by t => sizeOf t
decreasing_by
  exact sizeOf_snd_lt_of_mem_node (getChild_some_mem h₁)

theorem neqTrans : ∀ {t₁ t₂ t₃ : Node}, NEq t₁ t₂ → NEq t₂ t₃ → NEq t₁ t₃
  | .mk cs₁, .mk cs₂, .mk cs₃, NEq.mk _ _ hs₁ hv₁, NEq.mk _ _ hs₂ hv₂ =>
    NEq.mk cs₁ cs₃ (fun k => (hs₁ k).trans (hs₂ k))
      (fun k u₁ u₃ h₁ h₃ => by
        have hmid : (getChild cs₂ k).isSome = true := by
          rw [← hs₁ k, h₁]
          rfl
        obtain ⟨u₂, h₂⟩ := Option.isSome_iff_exists.mp hmid
        exact neqTrans (hv₁ k u₁ u₂ h₁ h₂) (hv₂ k u₂ u₃ h₂ h₃))
termination_by t₁ => sizeOf t₁
decreasing_by
  exact sizeOf_snd_lt_of_mem_node (getChild_some_mem h₁)

theorem neq_children_empty (t₁ t₂ : Node) (h : NEq t₁ t₂) :
    t₁.children.isEmpty = t₂.children.isEmpty := by
  obtain ⟨cs₁, cs₂, hs, _⟩ := h
  show cs₁.isEmpty = cs₂.isEmpty
  cases cs₁ with
  | nil =>
    cases cs₂ with
    | nil => rfl
    | cons y t =>
      obtain ⟨k, v⟩ := y
      have := hs k
      simp [getChild] at this
  | cons x t =>
    obtain ⟨k, v⟩ := x
    cases cs₂ with
    | nil =>
      have := hs k
      simp [getChild] at this
    | cons y s => rfl

theorem getChild_append_single_ne {cs : List (String × Node)}
    {k k' : String} (hne : ¬ k' = k) (P : Node) :
    getChild (cs ++ [(k, P)]) k' = getChild cs k' := by
  cases hq : getChild cs k' with
  | none =>
    rw [getChild_append_right _ hq]
    have h2 : ¬ k = k' := fun h => hne h.symm
    simp [getChild, h2]
  | some u => exact getChild_append_left hq

theorem getChild_append_single_self {cs : List (String × Node)} {k : String}
    (h : getChild cs k = none) (P : Node) :
    getChild (cs ++ [(k, P)]) k = some P := by
  rw [getChild_append_right _ h]
  simp [getChild]

theorem neq_mk_setChild {cs₁ cs₂ : List (String × Node)} {k : String}
    {u₁ u₂ : Node}
    (hs : ∀ k', (getChild cs₁ k').isSome = (getChild cs₂ k').isSome)
    (hv : ∀ k' v₁ v₂, getChild cs₁ k' = some v₁ →
      getChild cs₂ k' = some v₂ → NEq v₁ v₂)
    (h₁ : getChild cs₁ k = some u₁) (h₂ : getChild cs₂ k = some u₂)
    {x y : Node} (hxy : NEq x y) :
    NEq (.mk (setChild cs₁ k x)) (.mk (setChild cs₂ k y)) := by
  refine NEq.mk _ _ ?_ ?_
  · intro k'
    by_cases hk : k' = k
    · rw [hk, getChild_setChild_self h₁, getChild_setChild_self h₂]
      rfl
    · rw [getChild_setChild_other hk, getChild_setChild_other hk]
      exact hs k'
  · intro k' v₁ v₂ hg₁ hg₂
    by_cases hk : k' = k
    · rw [hk, getChild_setChild_self h₁] at hg₁
      rw [hk, getChild_setChild_self h₂] at hg₂
      cases hg₁
      cases hg₂
      exact hxy
    · rw [getChild_setChild_other hk] at hg₁ hg₂
      exact hv k' v₁ v₂ hg₁ hg₂

theorem neq_mk_append {cs₁ cs₂ : List (String × Node)} {k : String}
    (hs : ∀ k', (getChild cs₁ k').isSome = (getChild cs₂ k').isSome)
    (hv : ∀ k' v₁ v₂, getChild cs₁ k' = some v₁ →
      getChild cs₂ k' = some v₂ → NEq v₁ v₂)
    (h₁ : getChild cs₁ k = none) (h₂ : getChild cs₂ k = none)
    {x y : Node} (hxy : NEq x y) :
    NEq (.mk (cs₁ ++ [(k, x)])) (.mk (cs₂ ++ [(k, y)])) := by
  refine NEq.mk _ _ ?_ ?_
  · intro k'
    by_cases hk : k' = k
    · rw [hk, getChild_append_single_self h₁, getChild_append_single_self h₂]
      rfl
    · rw [getChild_append_single_ne hk, getChild_append_single_ne hk]
      exact hs k'
  · intro k' v₁ v₂ hg₁ hg₂
    by_cases hk : k' = k
    · rw [hk, getChild_append_single_self h₁] at hg₁
      rw [hk, getChild_append_single_self h₂] at hg₂
      cases hg₁
      cases hg₂
      exact hxy
    · rw [getChild_append_single_ne hk] at hg₁ hg₂
      exact hv k' v₁ v₂ hg₁ hg₂

theorem insertPath_cons_some {cs : List (String × Node)} {k : String}
    {u : Node} (h : getChild cs k = some u) (rest : List String) :
    insertPath (.mk cs) (k :: rest) =
      .mk (setChild cs k (insertPath u rest)) := by
  simp only [insertPath, h]

theorem insertPath_cons_none {cs : List (String × Node)} {k : String}
    (h : getChild cs k = none) (rest : List String) :
    insertPath (.mk cs) (k :: rest) =
      .mk (cs ++ [(k, insertPath (.mk []) rest)]) := by
  simp only [insertPath, h]

theorem neq_insertPath : ∀ (segs : List String) {t₁ t₂ : Node},
    NEq t₁ t₂ → NEq (insertPath t₁ segs) (insertPath t₂ segs) := by
  intro segs
  induction segs with
  | nil =>
    intro t₁ t₂ h
    cases t₁
    cases t₂
    exact h
  | cons k rest ih =>
    intro t₁ t₂ h
    obtain ⟨cs₁, cs₂, hs, hv⟩ := h
    cases hg₁ : getChild cs₁ k with
    | some u₁ =>
      have hg₂s : (getChild cs₂ k).isSome = true := by
        rw [← hs k, hg₁]
        rfl
      obtain ⟨u₂, hg₂⟩ := Option.isSome_iff_exists.mp hg₂s
      rw [insertPath_cons_some hg₁, insertPath_cons_some hg₂]
      exact neq_mk_setChild hs hv hg₁ hg₂ (ih (hv k u₁ u₂ hg₁ hg₂))
    | none =>
      have hg₂ : getChild cs₂ k = none := by
        have := hs k
        rw [hg₁] at this
        cases hq : getChild cs₂ k with
        | none => rfl
        | some u =>
          rw [hq] at this
          simp at this
      rw [insertPath_cons_none hg₁, insertPath_cons_none hg₂]
      exact neq_mk_append hs hv hg₁ hg₂ (neqRefl _)

theorem insertPath_nil (t : Node) : insertPath t [] = t := by
  cases t
  rfl

theorem neq_append_two {cs : List (String × Node)} {a b : String}
    (ha : getChild cs a = none) (hb : getChild cs b = none) (hab : a ≠ b)
    (x y : Node) :
    NEq (.mk (cs ++ [(a, x), (b, y)])) (.mk (cs ++ [(b, y), (a, x)])) := by
  have hba : ¬ b = a := fun h => hab h.symm
  have gL : ∀ k, getChild (cs ++ [(a, x), (b, y)]) k =
      if a = k then some x else if b = k then some y else getChild cs k := by
    intro k
    by_cases hk : a = k
    · rw [if_pos hk]
      rw [← hk]
      rw [getChild_append_right _ ha]
      simp [getChild]
    · rw [if_neg hk]
      by_cases hk2 : b = k
      · rw [if_pos hk2, ← hk2]
        rw [getChild_append_right _ hb]
        simp [getChild, hk, hba]
        intro he
        exact absurd (hk2 ▸ he) hk
      · rw [if_neg hk2]
        cases hq : getChild cs k with
        | some u => exact getChild_append_left hq
        | none =>
          rw [getChild_append_right _ hq]
          simp [getChild, hk, hk2]
  have gR : ∀ k, getChild (cs ++ [(b, y), (a, x)]) k =
      if a = k then some x else if b = k then some y else getChild cs k := by
    intro k
    by_cases hk : a = k
    · rw [if_pos hk, ← hk]
      rw [getChild_append_right _ ha]
      simp [getChild, hba]
    · rw [if_neg hk]
      by_cases hk2 : b = k
      · rw [if_pos hk2, ← hk2]
        rw [getChild_append_right _ hb]
        simp [getChild]
      · rw [if_neg hk2]
        cases hq : getChild cs k with
        | some u => exact getChild_append_left hq
        | none =>
          rw [getChild_append_right _ hq]
          simp [getChild, hk, hk2]
  refine NEq.mk _ _ ?_ ?_
  · intro k
    rw [gL k, gR k]
  · intro k v₁ v₂ h₁ h₂
    rw [gL k] at h₁
    rw [gR k] at h₂
    rw [h₁] at h₂
    cases h₂
    exact neqRefl v₁

theorem neq_insertPath_swap : ∀ (p q : List String) (t : Node),
    NEq (insertPath (insertPath t p) q) (insertPath (insertPath t q) p) := by
  intro p
  induction p with
  | nil =>
    intro q t
    rw [insertPath_nil, insertPath_nil]
    exact neqRefl _
  | cons a p' ihp =>
    intro q t
    cases q with
    | nil =>
      rw [insertPath_nil, insertPath_nil]
      exact neqRefl _
    | cons b q' =>
      obtain ⟨cs⟩ := t
      by_cases hab : a = b
      · subst hab
        cases hg : getChild cs a with
        | some u =>
          rw [insertPath_cons_some hg p', insertPath_cons_some hg q']
          have h1 : getChild (setChild cs a (insertPath u p')) a =
              some (insertPath u p') := getChild_setChild_self hg _
          have h2 : getChild (setChild cs a (insertPath u q')) a =
              some (insertPath u q') := getChild_setChild_self hg _
          rw [insertPath_cons_some h1 q', insertPath_cons_some h2 p',
            setChild_setChild, setChild_setChild]
          exact neq_mk_setChild (fun k => rfl)
            (fun k v₁ v₂ e₁ e₂ => by
              rw [e₁] at e₂
              cases e₂
              exact neqRefl v₁)
            hg hg (ihp q' u)
        | none =>
          rw [insertPath_cons_none hg p', insertPath_cons_none hg q']
          have h1 : getChild (cs ++ [(a, insertPath (.mk []) p')]) a =
              some (insertPath (.mk []) p') :=
            getChild_append_single_self hg _
          have h2 : getChild (cs ++ [(a, insertPath (.mk []) q')]) a =
              some (insertPath (.mk []) q') :=
            getChild_append_single_self hg _
          rw [insertPath_cons_some h1 q', insertPath_cons_some h2 p',
            setChild_append_new hg, setChild_append_new hg]
          exact neq_mk_append (fun k => rfl)
            (fun k v₁ v₂ e₁ e₂ => by
              rw [e₁] at e₂
              cases e₂
              exact neqRefl v₁)
            hg hg (ihp q' (.mk []))
      · have hba : ¬ b = a := fun h => hab h.symm
        cases hga : getChild cs a with
        | some u =>
          cases hgb : getChild cs b with
          | some w =>
            rw [insertPath_cons_some hga p', insertPath_cons_some hgb q']
            have h1 : getChild (setChild cs a (insertPath u p')) b =
                some w := by
              rw [getChild_setChild_other hba]
              exact hgb
            have h2 : getChild (setChild cs b (insertPath w q')) a =
                some u := by
              rw [getChild_setChild_other hab]
              exact hga
            rw [insertPath_cons_some h1 q', insertPath_cons_some h2 p',
              setChild_comm hab]
            exact neqRefl _
          | none =>
            rw [insertPath_cons_some hga p', insertPath_cons_none hgb q']
            have h1 : getChild (setChild cs a (insertPath u p')) b =
                none := by
              rw [getChild_setChild_other hba]
              exact hgb
            have h2 : getChild (cs ++ [(b, insertPath (.mk []) q')]) a =
                some u := (getChild_append_single_ne hab _).trans hga
            rw [insertPath_cons_none h1 q', insertPath_cons_some h2 p',
              setChild_append_left hga]
            exact neqRefl _
        | none =>
          cases hgb : getChild cs b with
          | some w =>
            rw [insertPath_cons_none hga p', insertPath_cons_some hgb q']
            have h1 : getChild (cs ++ [(a, insertPath (.mk []) p')]) b =
                some w := (getChild_append_single_ne hba _).trans hgb
            have h2 : getChild (setChild cs b (insertPath w q')) a =
                none := by
              rw [getChild_setChild_other hab]
              exact hga
            rw [insertPath_cons_some h1 q', insertPath_cons_none h2 p',
              setChild_append_left hgb]
            exact neqRefl _
          | none =>
            rw [insertPath_cons_none hga p', insertPath_cons_none hgb q']
            have h1 : getChild (cs ++ [(a, insertPath (.mk []) p')]) b =
                none := (getChild_append_single_ne hba _).trans hgb
            have h2 : getChild (cs ++ [(b, insertPath (.mk []) q')]) a =
                none := (getChild_append_single_ne hab _).trans hga
            rw [insertPath_cons_none h1 q', insertPath_cons_none h2 p']
            simp only [List.append_assoc, List.singleton_append]
            exact neq_append_two hga hgb hab _ _

theorem nodeWF_empty : NodeWF (.mk []) :=
  NodeWF.mk [] (by simp [keysOf]) (by simp)

theorem wf_insertPath : ∀ (segs : List String) {t : Node},
    NodeWF t → NodeWF (insertPath t segs) := by
  intro segs
  induction segs with
  | nil =>
    intro t h
    rw [insertPath_nil]
    exact h
  | cons k rest ih =>
    intro t h
    obtain ⟨cs, hnd, hch⟩ := h
    cases hg : getChild cs k with
    | some u =>
      rw [insertPath_cons_some hg rest]
      refine NodeWF.mk _ ?_ ?_
      · rw [keysOf_setChild]
        exact hnd
      · intro x hx
        rcases mem_setChild hx with h1 | h1
        · exact hch x h1
        · rw [h1]
          exact ih (hch (k, u) (getChild_some_mem hg))
    | none =>
      rw [insertPath_cons_none hg rest]
      refine NodeWF.mk _ ?_ ?_
      · have hk : k ∉ keysOf cs := (getChild_eq_none_iff cs k).mp hg
        have hkeys : keysOf (cs ++ [(k, insertPath (.mk []) rest)]) =
            keysOf cs ++ [k] := by
          simp [keysOf]
        rw [hkeys]
        exact hnd.append (List.nodup_singleton k)
          ((List.disjoint_singleton).mpr hk)
      · intro x hx
        rcases List.mem_append.mp hx with h1 | h1
        · exact hch x h1
        · rw [List.mem_singleton.mp h1]
          exact ih nodeWF_empty

theorem wf_buildTree (paths : List String) : NodeWF (buildTree paths) := by
  have hgen : ∀ (l : List String) (t : Node), NodeWF t →
      NodeWF (l.foldl (fun t p => insertPath t (pathSegments p)) t) := by
    intro l
    induction l with
    | nil => exact fun t h => h
    | cons p ps ih =>
      intro t h
      exact ih _ (wf_insertPath _ h)
  exact hgen paths _ nodeWF_empty

theorem neq_foldl_congr : ∀ (l : List String) {t₁ t₂ : Node}, NEq t₁ t₂ →
    NEq (l.foldl (fun t p => insertPath t (pathSegments p)) t₁)
      (l.foldl (fun t p => insertPath t (pathSegments p)) t₂) := by
  intro l
  induction l with
  | nil => exact fun h => h
  | cons p ps ih =>
    intro t₁ t₂ h
    exact ih (neq_insertPath (pathSegments p) h)

theorem neq_foldl_perm {l₁ l₂ : List String} (hp : l₁.Perm l₂) :
    ∀ t : Node,
      NEq (l₁.foldl (fun t p => insertPath t (pathSegments p)) t)
        (l₂.foldl (fun t p => insertPath t (pathSegments p)) t) := by
  induction hp with
  | nil => exact fun t => neqRefl t
  | cons x _ ih =>
    intro t
    exact ih _
  | swap x y l =>
    intro t
    exact neq_foldl_congr l
      (neq_insertPath_swap (pathSegments y) (pathSegments x) t)
  | trans _ _ ih₁ ih₂ =>
    intro t
    exact neqTrans (ih₁ t) (ih₂ t)

theorem charToNat_inj {a b : Char} (h : a.toNat = b.toNat) : a = b :=
  Char.ext (UInt32.ext h)

theorem charListLe_total : ∀ (l₁ l₂ : List Char),
    charListLe l₁ l₂ = true ∨ charListLe l₂ l₁ = true := by
  intro l₁
  induction l₁ with
  | nil => intro l₂; exact Or.inl rfl
  | cons a as ih =>
    intro l₂
    cases l₂ with
    | nil => exact Or.inr rfl
    | cons b bs =>
      by_cases he : a.toNat = b.toNat
      · simp only [charListLe, if_pos he, if_pos he.symm]
        exact ih bs
      · have he' : ¬ b.toNat = a.toNat := fun h => he h.symm
        simp only [charListLe, if_neg he, if_neg he']
        rcases Nat.lt_or_ge a.toNat b.toNat with h | h
        · exact Or.inl (by simpa using h)
        · have : b.toNat < a.toNat := Nat.lt_of_le_of_ne h he'
          exact Or.inr (by simpa using this)

theorem charListLe_antisymm : ∀ {l₁ l₂ : List Char},
    charListLe l₁ l₂ = true → charListLe l₂ l₁ = true → l₁ = l₂ := by
  intro l₁
  induction l₁ with
  | nil =>
    intro l₂ _ h₂
    cases l₂ with
    | nil => rfl
    | cons b bs => simp [charListLe] at h₂
  | cons a as ih =>
    intro l₂ h₁ h₂
    cases l₂ with
    | nil => simp [charListLe] at h₁
    | cons b bs =>
      by_cases he : a.toNat = b.toNat
      · have hab : a = b := charToNat_inj he
        simp only [charListLe, if_pos he, if_pos he.symm] at h₁ h₂
        rw [hab, ih h₁ h₂]
      · have he' : ¬ b.toNat = a.toNat := fun h => he h.symm
        simp only [charListLe, if_neg he, if_neg he'] at h₁ h₂
        simp at h₁ h₂
        omega

theorem charListLe_trans : ∀ {l₁ l₂ l₃ : List Char},
    charListLe l₁ l₂ = true → charListLe l₂ l₃ = true →
    charListLe l₁ l₃ = true := by
  intro l₁
  induction l₁ with
  | nil => intro l₂ l₃ _ _; rfl
  | cons a as ih =>
    intro l₂ l₃ h₁ h₂
    cases l₂ with
    | nil => simp [charListLe] at h₁
    | cons b bs =>
      cases l₃ with
      | nil => simp [charListLe] at h₂
      | cons c cs =>
        by_cases hab : a.toNat = b.toNat
        · by_cases hbc : b.toNat = c.toNat
          · have hac : a.toNat = c.toNat := hab.trans hbc
            simp only [charListLe, if_pos hab, if_pos hbc, if_pos hac]
              at h₁ h₂ ⊢
            exact ih h₁ h₂
          · have hac : ¬ a.toNat = c.toNat := fun h => hbc (hab.symm.trans h)
            simp only [charListLe, if_pos hab, if_neg hbc, if_neg hac]
              at h₂ ⊢
            rw [hab]
            exact h₂
        · by_cases hbc : b.toNat = c.toNat
          · have hac : ¬ a.toNat = c.toNat := fun h => hab (h.trans hbc.symm)
            simp only [charListLe, if_neg hab, if_neg hac] at h₁ ⊢
            rw [← hbc]
            exact h₁
          · simp only [charListLe, if_neg hab, if_neg hbc] at h₁ h₂
            simp at h₁ h₂
            have hac2 : a.toNat < c.toNat := h₁.trans h₂
            by_cases hac : a.toNat = c.toNat
            · omega
            · simp only [charListLe, if_neg hac]
              simpa using hac2

theorem strLeb_total (a b : String) :
    strLeb a b = true ∨ strLeb b a = true :=
  charListLe_total a.data b.data

theorem strLeb_antisymm {a b : String} (h₁ : strLeb a b = true)
    (h₂ : strLeb b a = true) : a = b :=
  String.ext (charListLe_antisymm h₁ h₂)

theorem strLeb_trans {a b c : String} (h₁ : strLeb a b = true)
    (h₂ : strLeb b c = true) : strLeb a c = true :=
  charListLe_trans h₁ h₂

theorem mem_insSorted {x z : String × Node} :
    ∀ {l : List (String × Node)}, z ∈ insSorted x l → z = x ∨ z ∈ l := by
  intro l
  induction l with
  | nil =>
    intro h
    simp [insSorted] at h
    exact Or.inl h
  | cons y ys ih =>
    intro h
    simp only [insSorted] at h
    split at h
    · rcases List.mem_cons.mp h with h1 | h1
      · exact Or.inl h1
      · exact Or.inr h1
    · rcases List.mem_cons.mp h with h1 | h1
      · exact Or.inr (h1 ▸ List.mem_cons_self _ _)
      · rcases ih h1 with h2 | h2
        · exact Or.inl h2
        · exact Or.inr (List.mem_cons_of_mem _ h2)

theorem insSorted_pairwise {x : String × Node} {l : List (String × Node)}
    (hl : List.Pairwise (fun a b : String × Node => strLeb a.1 b.1 = true) l) :
    List.Pairwise (fun a b : String × Node => strLeb a.1 b.1 = true)
      (insSorted x l) := by
  induction l with
  | nil => simp [insSorted]
  | cons y ys ih =>
    rcases List.pairwise_cons.mp hl with ⟨hy, hys⟩
    simp only [insSorted]
    split
    · next hxy =>
      refine List.pairwise_cons.mpr ⟨?_, hl⟩
      intro b hb
      rcases List.mem_cons.mp hb with h1 | h1
      · rw [h1]
        exact hxy
      · exact strLeb_trans hxy (hy b h1)
    · next hxy =>
      have hyx : strLeb y.1 x.1 = true := by
        rcases strLeb_total x.1 y.1 with h | h
        · exact absurd h hxy
        · exact h
      refine List.pairwise_cons.mpr ⟨?_, ih hys⟩
      intro b hb
      rcases mem_insSorted hb with h1 | h1
      · rw [h1]
        exact hyx
      · exact hy b h1

theorem sortChildren_sorted (cs : List (String × Node)) :
    List.Pairwise (fun a b : String × Node => strLeb a.1 b.1 = true)
      (sortChildren cs) := by
  induction cs with
  | nil => simp [sortChildren]
  | cons x xs ih => exact insSorted_pairwise ih

theorem sorted_keys_eq {cs₁ cs₂ : List (String × Node)}
    (hnd₁ : (keysOf cs₁).Nodup) (hnd₂ : (keysOf cs₂).Nodup)
    (hmem : ∀ k, k ∈ keysOf cs₁ ↔ k ∈ keysOf cs₂) :
    keysOf (sortChildren cs₁) = keysOf (sortChildren cs₂) := by
  have hp₁ : (keysOf (sortChildren cs₁)).Perm (keysOf cs₁) :=
    (sortChildren_perm cs₁).map Prod.fst
  have hp₂ : (keysOf (sortChildren cs₂)).Perm (keysOf cs₂) :=
    (sortChildren_perm cs₂).map Prod.fst
  have hnd₁' : (keysOf (sortChildren cs₁)).Nodup := hp₁.nodup_iff.mpr hnd₁
  have hnd₂' : (keysOf (sortChildren cs₂)).Nodup := hp₂.nodup_iff.mpr hnd₂
  have hperm : (keysOf (sortChildren cs₁)).Perm (keysOf (sortChildren cs₂)) := by
    refine (List.perm_ext_iff_of_nodup hnd₁' hnd₂').mpr ?_
    intro a
    rw [hp₁.mem_iff, hp₂.mem_iff]
    exact hmem a
  have hs₁ : List.Pairwise (fun a b : String => strLeb a b = true)
      (keysOf (sortChildren cs₁)) := by
    rw [keysOf, List.pairwise_map]
    exact sortChildren_sorted cs₁
  have hs₂ : List.Pairwise (fun a b : String => strLeb a b = true)
      (keysOf (sortChildren cs₂)) := by
    rw [keysOf, List.pairwise_map]
    exact sortChildren_sorted cs₂
  have hstrict₁ : List.Pairwise
      (fun a b : String => strLeb a b = true ∧ a ≠ b)
      (keysOf (sortChildren cs₁)) := hs₁.and hnd₁'
  have hstrict₂ : List.Pairwise
      (fun a b : String => strLeb a b = true ∧ a ≠ b)
      (keysOf (sortChildren cs₂)) := hs₂.and hnd₂'
  haveI : IsAntisymm String (fun a b : String => strLeb a b = true ∧ a ≠ b) :=
    ⟨fun a b h₁ h₂ => strLeb_antisymm h₁.1 h₂.1⟩
  exact List.eq_of_perm_of_sorted hperm hstrict₁ hstrict₂

theorem forall₂_of_keys {R : (String × Node) → (String × Node) → Prop} :
    ∀ (l₁ l₂ : List (String × Node)), keysOf l₁ = keysOf l₂ →
    (∀ k u₁ u₂, (k, u₁) ∈ l₁ → (k, u₂) ∈ l₂ → R (k, u₁) (k, u₂)) →
    List.Forall₂ R l₁ l₂ := by
  intro l₁
  induction l₁ with
  | nil =>
    intro l₂ hk _
    cases l₂ with
    | nil => exact List.Forall₂.nil
    | cons y t₂ => simp [keysOf] at hk
  | cons x t₁ ih =>
    intro l₂ hk hR
    obtain ⟨k, u₁⟩ := x
    cases l₂ with
    | nil => simp [keysOf] at hk
    | cons y t₂ =>
      obtain ⟨k₂, u₂⟩ := y
      simp only [keysOf, List.map_cons, List.cons.injEq] at hk
      obtain ⟨hkk, htk⟩ := hk
      subst hkk
      refine List.Forall₂.cons ?_ ?_
      · exact hR k u₁ u₂ (List.mem_cons_self _ _) (List.mem_cons_self _ _)
      · refine ih t₂ htk ?_
        intro k' v₁ v₂ h₁ h₂
        exact hR k' v₁ v₂ (List.mem_cons_of_mem _ h₁)
          (List.mem_cons_of_mem _ h₂)

theorem renderLevel_congr {f g : Node → String → String}
    {l₁ l₂ : List (String × Node)}
    (hf : List.Forall₂ (fun a b : String × Node => a.1 = b.1 ∧
      a.2.children.isEmpty = b.2.children.isEmpty ∧
      ∀ pre, f a.2 pre = g b.2 pre) l₁ l₂) :
    ∀ pre, renderLevel f l₁ pre = renderLevel g l₂ pre := by
  induction hf with
  | nil => intro pre; rfl
  | cons hR htail ih =>
    intro pre
    next a b t₁ t₂ =>
      obtain ⟨k₁, c₁⟩ := a
      obtain ⟨k₂, c₂⟩ := b
      obtain ⟨hk, hemp, hrend⟩ := hR
      have hlen := htail.length_eq
      have hlast : t₁.isEmpty = t₂.isEmpty := by
        cases t₁ <;> cases t₂ <;> simp_all
      dsimp only at hk hemp hrend
      simp only [renderLevel]
      rw [hk, hemp, hlast, ih pre, hrend]

theorem renderF_congr : ∀ (fuel : Nat) {t₁ t₂ : Node},
    NodeWF t₁ → NodeWF t₂ → NEq t₁ t₂ → ∀ pre,
    renderF fuel (sortChildren t₁.children) pre =
      renderF fuel (sortChildren t₂.children) pre := by
  intro fuel
  induction fuel with
  | zero => intro t₁ t₂ _ _ _ pre; rfl
  | succ fuel ih =>
    intro t₁ t₂ hw₁ hw₂ hne pre
    cases hne with
    | mk cs₁ cs₂ hs hv =>
      cases hw₁ with
      | mk _ hnd₁ hch₁ =>
        cases hw₂ with
        | mk _ hnd₂ hch₂ =>
          show renderF (fuel + 1) (sortChildren cs₁) pre =
            renderF (fuel + 1) (sortChildren cs₂) pre
          simp only [renderF]
          refine renderLevel_congr ?_ pre
          refine forall₂_of_keys _ _ ?_ ?_
          · apply sorted_keys_eq hnd₁ hnd₂
            intro k
            rw [← getChild_isSome_iff, ← getChild_isSome_iff, hs k]
          · intro k u₁ u₂ hm₁ hm₂
            have hm₁' : (k, u₁) ∈ cs₁ :=
              (sortChildren_perm cs₁).mem_iff.mp hm₁
            have hm₂' : (k, u₂) ∈ cs₂ :=
              (sortChildren_perm cs₂).mem_iff.mp hm₂
            have hg₁ : getChild cs₁ k = some u₁ :=
              getChild_of_mem_nodup hnd₁ hm₁'
            have hg₂ : getChild cs₂ k = some u₂ :=
              getChild_of_mem_nodup hnd₂ hm₂'
            have hnequ : NEq u₁ u₂ := hv k u₁ u₂ hg₁ hg₂
            exact ⟨rfl, neq_children_empty _ _ hnequ,
              fun pre' => ih (hch₁ _ hm₁') (hch₂ _ hm₂') hnequ pre'⟩

/-- The spec-prescribed explicit-mapping semantics of the tree satisfies
the purity contract: for every list of paths and every permutation of
it, the rendered tree is byte-identical, because insertion builds the
same segment mapping up to child order and rendering sorts the keys at
every level.  (The source's property-bag semantics violates this —
see `c7_prototype_pollution`.) -/
theorem specTree_order_independence (paths₁ paths₂ : List String)
    (hperm : paths₁.Perm paths₂) :
    generateTreeString paths₁ = generateTreeString paths₂ := by
  have hfuel : treeFuel paths₁ = treeFuel paths₂ := by
    unfold treeFuel
    rw [(hperm.map _).sum_eq]
  have hne : NEq (buildTree paths₁) (buildTree paths₂) :=
    neq_foldl_perm hperm _
  have h := renderF_congr (treeFuel paths₁) (wf_buildTree paths₁)
    (wf_buildTree paths₂) hne ""
  unfold generateTreeString
  rw [← hfuel]
  exact congrArg trimStr h

theorem specTree_order_independence_example :
    (["b.ts", "a.ts"] : List String).Perm ["a.ts", "b.ts"] ∧
      generateTreeString ["b.ts", "a.ts"] =
        generateTreeString ["a.ts", "b.ts"] :=
  ⟨by decide, specTree_order_independence _ _ (by decide)⟩

/-- A JS object of the tree-build fragment: its own string-keyed
properties in creation order, each holding a reference to another
object.  (The own properties of `Object.prototype` are its built-in
function-valued members plus whatever the build writes onto it.) -/
structure JsObj where
  props : List (String × Nat)
deriving DecidableEq

/-- The object graph of one `generateTreeString` call: reference 0 is
`Object.prototype`, reference 1 the fresh `tree` literal, references
2–8 the built-in function objects held by `Object.prototype`'s own
properties (opaque here: the build navigates into them only for paths
with segments like `toString`, which none of the evaluated inputs
contain), and `next` is the next fresh reference. -/
structure JsHeap where
  objs : List (Nat × JsObj)
  next : Nat
deriving DecidableEq

/-- Association-list update that overwrites an existing property in
place or appends a new one at the end (JS property creation order). -/
def setProp : List (String × Nat) → String → Nat → List (String × Nat)
  | [], n, v => [(n, v)]
  | (n', v') :: rest, n, v =>
    if n' = n then (n, v) :: rest else (n', v') :: setProp rest n v

def lookupProp : List (String × Nat) → String → Option Nat
  | [], _ => none
  | (n', v) :: rest, n => if n' = n then some v else lookupProp rest n

/-- The own properties of the object behind a reference. -/
def getOwnObj : List (Nat × JsObj) → Nat → List (String × Nat)
  | [], _ => []
  | (r', o) :: rest, r => if r' = r then o.props else getOwnObj rest r

def getOwnProp (h : List (Nat × JsObj)) (r : Nat) (n : String) :
    Option Nat :=
  lookupProp (getOwnObj h r) n

def setOwnProp (h : List (Nat × JsObj)) (r : Nat) (n : String) (v : Nat) :
    List (Nat × JsObj) :=
  h.map (fun x => if x.1 = r then (x.1, ⟨setProp x.2.props n v⟩) else x)

/-- The value of `current[part]` with prototype-chain semantics:
`__proto__` yields the object's prototype — `Object.prototype`
(reference 0) for every object of this fragment except
`Object.prototype` itself, whose prototype is `null`, modelled as
absent; any other name is looked up among the own properties and then
among the own properties of `Object.prototype` (which is where
pollution by the build becomes visible to every object).  `none` is the
falsy `undefined`/`null`; every present reference is an object and
truthy. -/
def jsGet (h : List (Nat × JsObj)) (r : Nat) (n : String) : Option Nat :=
  if n = "__proto__" then (if r = 0 then none else some 0)
  else
    match getOwnProp h r n with
    | some v => some v
    | none => if r = 0 then none else getOwnProp h 0 n

/-- One `parts.forEach` iteration of the source's tree build, bag
semantics: `if (!current[part]) current[part] = {}; current =
current[part]`.  Because reading `__proto__` on the objects of this
fragment always yields the truthy `Object.prototype`, the guarded
assignment only ever creates an ordinary own property (the ECMAScript
`__proto__` setter is unreachable on the evaluated inputs). -/
def jsInsertParts : JsHeap → Nat → List String → JsHeap
  | st, _, [] => st
  | st, cur, part :: rest =>
    match jsGet st.objs cur part with
    | some r' => jsInsertParts st r' rest
    | none =>
      let fresh := st.next
      jsInsertParts
        { objs := setOwnProp st.objs cur part fresh ++ [(fresh, ⟨[]⟩)],
          next := fresh + 1 }
        fresh rest

/-- The heap at `const tree: any = {}`: `Object.prototype` with its
built-in own properties, and the empty root. -/
def jsInitHeap : JsHeap :=
  { objs := [(0, ⟨[("constructor", 2), ("hasOwnProperty", 3),
      ("isPrototypeOf", 4), ("propertyIsEnumerable", 5),
      ("toLocaleString", 6), ("toString", 7), ("valueOf", 8)]⟩),
      (1, ⟨[]⟩), (2, ⟨[]⟩), (3, ⟨[]⟩), (4, ⟨[]⟩), (5, ⟨[]⟩), (6, ⟨[]⟩),
      (7, ⟨[]⟩), (8, ⟨[]⟩)],
    next := 9 }

/-- The object graph after `paths.forEach` of the source's build. -/
def jsBuildTree (paths : List String) : JsHeap :=
  paths.foldl (fun st p => jsInsertParts st 1 (pathSegments p)) jsInitHeap

def insSortedN (x : String × Nat) :
    List (String × Nat) → List (String × Nat)
  | [] => [x]
  | y :: ys => if strLeb x.1 y.1 then x :: y :: ys else y :: insSortedN x ys

/-- `Object.keys(node).sort()` over the bag model: the own property
names in creation order, sorted (paired with their references). -/
def sortPropsN (cs : List (String × Nat)) : List (String × Nat) :=
  cs.foldr insSortedN []

/-- One level of `printTree` over the object graph: `Object.keys` sees
own properties only, so `node[key]` here is the own value. -/
def jsRenderLevel (h : List (Nat × JsObj))
    (renderSub : Nat → String → String) :
    List (String × Nat) → String → String
  | [], _ => ""
  | (k, r) :: rest, pre =>
    let isLast := rest.isEmpty
    let connector := if isLast then "└── " else "├── "
    let childPrefix := if isLast then "    " else "│   "
    let isFile := (getOwnObj h r).isEmpty
    pre ++ connector ++ k ++ (if isFile then "" else "/") ++ "\n" ++
      (if isFile then "" else renderSub r (pre ++ childPrefix)) ++
      jsRenderLevel h renderSub rest pre

/-- `printTree` over the object graph, depth-bounded as before; own
property edges always point to younger references, so any bound of at
least `next` exceeds the depth. -/
def jsRenderF : Nat → List (Nat × JsObj) → List (String × Nat) →
    String → String
  | 0, _, _, _ => ""
  | fuel + 1, h, cs, pre =>
    jsRenderLevel h (fun r p => jsRenderF fuel h (sortPropsN (getOwnObj h r)) p)
      cs pre

/-- Embedding of the source's `generateTreeString` with the property
bag's prototype-chain semantics. -/
def jsGenerateTreeString (paths : List String) : String :=
  let st := jsBuildTree paths
  trimStr (jsRenderF st.next st.objs (sortPropsN (getOwnObj st.objs 1)) "")

example : jsGenerateTreeString ["src/a.ts"] = "└── src/\n    └── a.ts" := by
  decide
example : jsGenerateTreeString ["b.ts", "a.ts"] =
    generateTreeString ["b.ts", "a.ts"] := by decide

/-- C7: the source's tree build reads `current[part]` through the
prototype chain, so the segment `__proto__` navigates into the shared
`Object.prototype` and the guarded assignment then creates `x.js` on it
(global pollution, last conjunct); rendering this path list and its
reverse — a permutation — yields different strings, because in one
order the polluted inherited `x.js` suppresses creation of `b`'s own
child.  `generateTreeString` is therefore neither pure nor
order-independent, contradicting the claim and the spec's contract;
the spec's prescribed explicit-mapping semantics does satisfy it
(`specTree_order_independence`). -/
theorem c7_prototype_pollution :
    (["__proto__/x.js", "b/x.js"] : List String).Perm
        ["b/x.js", "__proto__/x.js"]
    ∧ jsGenerateTreeString ["__proto__/x.js", "b/x.js"] = "└── b"
    ∧ jsGenerateTreeString ["b/x.js", "__proto__/x.js"] =
        "└── b/\n    └── x.js"
    ∧ ("└── b" : String) ≠ "└── b/\n    └── x.js"
    ∧ getOwnProp (jsBuildTree ["__proto__/x.js", "b/x.js"]).objs 0 "x.js" =
        some 9 :=
  ⟨by decide, by decide, by decide, by decide, by decide⟩
